import Mathlib

/-!
Shallow embedding of the zero-knowledge sum-check module
(`subroutines/src/poly_iop/zk_sum_check/mod.rs`) of the hyperplonk repository.

The driver (`prove`, `verify`, `extract_sum`) is translated from `mod.rs`.
The prover and verifier submodules (`prover.rs`, `verifier.rs`), the shared
structs (`IOPProof`, `IOPVerifierState`), the transcript crate, the
`arithmetic` crate (`VirtualPolynomial`, `VPAuxInfo`) and the error enum are
not part of the visible sources, so they are modelled from the specification
(see the individual doc comments).

Conventions of the embedding:
* machine integers are `Nat`; field elements live in an abstract field `F`;
* fallible Rust code returns `Except RunErr α`; a Rust `panic` (from
  `assert!` or `expect`) is modelled by the distinguished error
  `RunErr.panicked`, which is not a value of the Rust `Result` type and is
  kept disjoint from the typed errors `RunErr.typedErr`;
* the Fiat-Shamir transcript is an append-only list of items together with a
  challenge-derivation function `chalFn`, a pure function of the history.
-/

namespace ZkSumCheck

/-- Modelled from the spec: `VPAuxInfo` lives in the `arithmetic` crate, which
is not under the visible sources.  Spec section 3: aux info is
`{num_variables, max_degree, num_products}`. -/
structure VPAuxInfo where
  max_degree : Nat
  num_variables : Nat
  num_products : Nat
deriving DecidableEq

/-- Modelled from the spec: the round-message struct of `structs.rs` is not
under the visible sources.  Spec section 3: a round message is an ordered
sequence of `D+1` scalar evaluations of that round's single-variable
polynomial at the points `0, 1, ..., D`. -/
structure IOPProverMessage (F : Type) where
  evaluations : List F
deriving DecidableEq

/-- Modelled from the spec: `IOPProof` of `structs.rs` is not under the
visible sources; its shape (`point` plus `proofs`) is fixed by the literal
`IOPProof { point, proofs }` constructed in `mod.rs`. -/
structure IOPProof (F : Type) where
  point : List F
  proofs : List (IOPProverMessage F)
deriving DecidableEq

/-- Modelled from the spec: `VirtualPolynomial` of the `arithmetic` crate is
not under the visible sources.  Spec sections 2 and 3: a weighted sum of
products of multilinear functions, each tabulated over the Boolean hypercube
of `num_variables` variables; every product carries a coefficient and its
list of factor tables. -/
structure VirtualPolynomial (F : Type) where
  aux_info : VPAuxInfo
  products : List (F × List (List F))
deriving DecidableEq

/-- Modelled from the spec: `RandomMaskPolynomial` of `prover.rs` is not under
the visible sources.  The test in `mod.rs` fixes the shape of its
`evaluations` field: an outer list with one row per variable
(`mask.evaluations.len()` is passed as the mask's variable count) and inner
rows of `degree + 1` evaluations (`mask.evaluations[0].len() - 1` is passed
as the mask's degree).  Each row represents one univariate blinding summand
by its values at the sample points `0, ..., degree`. -/
structure RandomMaskPolynomial (F : Type) where
  evaluations : List (List F)
deriving DecidableEq

/-- A ZkSumCheckSubClaim is a claim generated by the verifier at the end of
verification when it is convinced (translated from `mod.rs`). -/
structure ZkSumCheckSubClaim (F : Type) where
  point : List F
  expected_evaluation : F
deriving DecidableEq

/-- Modelled from the spec: the error enum of `errors.rs` is not under the
visible sources.  Spec section 7 lists the taxonomy: `InvalidInput`,
`ProofIncomplete`, `SumCheckFailed`, `DegenerateChallenge`. -/
inductive PolyIOPErrors where
  | invalidInput
  | proofIncomplete
  | sumCheckFailed
  | degenerateChallenge
deriving DecidableEq

/-- The panic sites of the visible driver code: the two challenge assertions
of `prove` (`assert!(challenge.unwrap() != F::zero())`,
`assert!(challenge.unwrap() != F::one())`), the
`.expect("proof is incomplete")` of `verify`, and the unchecked indexing of
`extract_sum`. -/
inductive PanicKind where
  | challengeIsZero
  | challengeIsOne
  | proofIsIncomplete
  | indexOutOfBounds
deriving DecidableEq

/-- Result alternative of a run of the embedded code: either a typed error
value (a Rust `Err(PolyIOPErrors)`) or a process abort (a Rust panic). -/
inductive RunErr where
  | typedErr : PolyIOPErrors → RunErr
  | panicked : PanicKind → RunErr
deriving DecidableEq

/-- Modelled from the spec: the transcript crate is not under the visible
sources.  Spec sections 2 and 3: an append-only, domain-separated sequence of
labeled entries; the labels of the protocol (`aux info`, `prover msg`,
`Internal round`) are reflected by the three constructors. -/
inductive TItem (F : Type) where
  | auxInfo : VPAuxInfo → TItem F
  | msg : IOPProverMessage F → TItem F
  | challenge : F → TItem F
deriving DecidableEq

deriving instance DecidableEq for Except

variable {F : Type} [Field F] [DecidableEq F]

/-- Modelled from the spec: the transcript crate is not under the visible
sources.  Spec section 3: challenge derivation is a pure function of all
prior appended data; the derived challenge is itself appended to the
history (as `get_and_append_challenge` does in the source's callers). -/
def get_and_append_challenge (chalFn : List (TItem F) → F) (hist : List (TItem F)) :
    F × List (TItem F) :=
  (chalFn hist, hist ++ [TItem.challenge (chalFn hist)])

/-- Modelled from the spec: the hypercube enumeration of the `arithmetic`
crate is not under the visible sources.  All points of the Boolean hypercube
of the given dimension, leading variable first. -/
def hypercube (F : Type) [Field F] : Nat → List (List F)
  | 0 => [[]]
  | n + 1 =>
      ((hypercube F n).map (fun b => (0 : F) :: b)) ++
        ((hypercube F n).map (fun b => (1 : F) :: b))

/-- Modelled from the spec: multilinear-extension evaluation of the
`arithmetic` crate is not under the visible sources.  Glossary: the
multilinear extension of a hypercube table, evaluated at an arbitrary point by
interpolating linearly, in each variable, between the two halves of the table
indexed by 0/1 for that variable. -/
def mleEval : List F → List F → F
  | [], table => table.headD 0
  | x :: xs, table =>
      (1 - x) * mleEval xs (table.take (table.length / 2)) +
        x * mleEval xs (table.drop (table.length / 2))

/-- Modelled from the spec: `VirtualPolynomial::evaluate` of the `arithmetic`
crate is not under the visible sources.  Spec section 6: the value of the
weighted sum of products of multilinear extensions at a point. -/
def vpEval (poly : VirtualPolynomial F) (z : List F) : F :=
  (poly.products.map (fun pr => pr.1 * (pr.2.map (fun tbl => mleEval z tbl)).prod)).sum

/-- Modelled from the spec: the univariate evaluation helper used by the
prover/verifier submodules is not under the visible sources.  Spec
section 4.3: univariate-polynomial evaluation by Lagrange interpolation over
the `D+1` declared sample points `0, ..., D`, directly from the evaluation
list, without coefficient reconstruction. -/
def interpolate (vals : List F) (x : F) : F :=
  ∑ i ∈ Finset.range vals.length,
    vals.getD i 0 * ∏ j ∈ (Finset.range vals.length).erase i, (x - (j : F)) / ((i : F) - (j : F))

/-- Modelled from the spec: the mask-evaluation core of `prover.rs` is not
under the visible sources.  The mask value at a point is the sum, over the
variables, of the row's univariate interpolated at the matching coordinate
(one blinding univariate per variable; see `RandomMaskPolynomial`). -/
def maskEvalCore (rows : List (List F)) (z : List F) : F :=
  ((rows.zip z).map (fun p => interpolate p.1 p.2)).sum

/-- Modelled from the spec: `RandomMaskPolynomial::eval` is not under the
visible sources.  Spec section 4.1: evaluation fails with a
dimension-mismatch error when the point length differs from the variable
count. -/
def RandomMaskPolynomial.eval (mask : RandomMaskPolynomial F) (z : List F) :
    Except RunErr F :=
  if z.length = mask.evaluations.length then .ok (maskEvalCore mask.evaluations z)
  else .error (.typedErr .invalidInput)

/-- Degree bound of the mask: one less than the row width (the test in
`mod.rs` passes `mask.evaluations[0].len() - 1` as the mask degree). -/
def maskDegree (mask : RandomMaskPolynomial F) : Nat :=
  (mask.evaluations.headD []).length - 1

/-- Degree bound of a round message: spec section 3, the per-round degree
bound is at least the declared `max_degree`, raised by the mask's
contribution. -/
def degreeBound (poly : VirtualPolynomial F) (mask : RandomMaskPolynomial F) : Nat :=
  max poly.aux_info.max_degree (maskDegree mask)

/-- The blinded polynomial the protocol sums: the virtual polynomial plus
`rho` times the mask (spec section 2: the driver combines the claimed sum
with `rho * mask_sum`; the prover's rounds sum the matching combination). -/
def combinedF (poly : VirtualPolynomial F) (mask : RandomMaskPolynomial F) (rho : F)
    (z : List F) : F :=
  vpEval poly z + rho * maskEvalCore mask.evaluations z

/-- Sum of a function over the Boolean hypercube of dimension `m` (the shape
of the true sum and the mask sum the sampling operations return). -/
def hypercubeSum (m : Nat) (g : List F → F) : F :=
  ((hypercube F m).map g).sum

/-- Partial hypercube sum of `f` with the first coordinates fixed to `cs`,
the next coordinate fixed to `x`, and the remaining `rem` coordinates summed
over the hypercube.  The value of the honest round polynomial at `x`. -/
def sectionSum (f : List F → F) (rem : Nat) (cs : List F) (x : F) : F :=
  ((hypercube F rem).map (fun b => f (cs ++ x :: b))).sum

/-- Modelled from the spec: `prove_round_and_update_state` of `prover.rs` is
not under the visible sources.  Spec section 4.2: the round message lists,
for each evaluation point `x` in `0, ..., D`, the sum over the remaining
hypercube of the combined polynomial with the bound variables fixed to the
received challenges and the current variable set to `x`.  (The spec's
per-round folding of the evaluation tables by the received challenge is the
restriction of the leading free variable to that challenge; the message is
expressed here directly through the restricted values.) -/
def roundMessage (f : List F → F) (rem : Nat) (cs : List F) (D : Nat) :
    IOPProverMessage F :=
  ⟨(List.range (D + 1)).map (fun j : Nat => sectionSum f rem cs (j : F))⟩

/-- The round loop of `ZkSumCheck::prove` (translated from `mod.rs`, with the
per-round message generation modelled from the spec, see `roundMessage`):
each round appends the produced message to the transcript, derives the round
challenge, asserts it differs from 0 and from 1 (a failed `assert!` is a
panic), and records it.  `k` counts the remaining rounds, `cs` the challenges
bound so far. -/
def proveRounds (f : List F → F) (D : Nat) (chalFn : List (TItem F) → F) :
    Nat → List F → List (TItem F) →
    Except RunErr (List (IOPProverMessage F) × List F × List (TItem F))
  | 0, cs, hist => .ok ([], cs, hist)
  | k + 1, cs, hist =>
      let m := roundMessage f k cs D
      let hist1 := hist ++ [TItem.msg m]
      let c := chalFn hist1
      let hist2 := hist1 ++ [TItem.challenge c]
      if c = 0 then .error (.panicked .challengeIsZero)
      else if c = 1 then .error (.panicked .challengeIsOne)
      else
        match proveRounds f D chalFn k (cs ++ [c]) hist2 with
        | .ok (msgs, cs2, hist3) => .ok (m :: msgs, cs2, hist3)
        | .error e => .error e

/-- `ZkSumCheck::prove` translated from `mod.rs`: append `aux_info` to the
transcript, initialize the prover (spec section 4.2: `prover_init` fails with
`InvalidInput` unless the mask's variable count matches the polynomial's and
the mask's degree bound is at least the polynomial's `max_degree`), run
`num_variables` rounds, and return the proof whose point is the accumulated
challenge vector. -/
def prove (chalFn : List (TItem F) → F) (poly : VirtualPolynomial F)
    (mask : RandomMaskPolynomial F) (rho : F) (t : List (TItem F)) :
    Except RunErr (IOPProof F × List (TItem F)) :=
  let hist0 := t ++ [TItem.auxInfo poly.aux_info]
  if mask.evaluations.length = poly.aux_info.num_variables ∧
      poly.aux_info.max_degree ≤ maskDegree mask then
    match proveRounds (combinedF poly mask rho) (degreeBound poly mask) chalFn
        poly.aux_info.num_variables [] hist0 with
    | .ok (msgs, cs, hist) => .ok (⟨cs, msgs⟩, hist)
    | .error e => .error e
  else .error (.typedErr .invalidInput)

/-- `ZkSumCheck::extract_sum` translated from `mod.rs`:
`proof.proofs[0].evaluations[0] + proof.proofs[0].evaluations[1]`, with the
unchecked indexing modelled as a panic when out of bounds. -/
def extract_sum (proof : IOPProof F) : Except RunErr F :=
  match proof.proofs[0]? with
  | none => .error (.panicked .indexOutOfBounds)
  | some m =>
      match m.evaluations[0]?, m.evaluations[1]? with
      | some e0, some e1 => .ok (e0 + e1)
      | _, _ => .error (.panicked .indexOutOfBounds)

/-- Modelled from the spec: `IOPVerifierState` of `structs.rs` is not under
the visible sources.  Spec section 3: the verifier state holds the aux-info
snapshot, the ordered list of received round messages, and the ordered list
of sampled challenges. -/
structure IOPVerifierState (F : Type) where
  num_vars : Nat
  max_degree : Nat
  polynomials_received : List (List F)
  challenges : List F
deriving DecidableEq

/-- Modelled from the spec: `verifier_init` of `verifier.rs` is not under the
visible sources.  Spec section 4.3: stores the declared variable count and
degree bound, with empty message and challenge lists. -/
def verifier_init (aux_info : VPAuxInfo) : IOPVerifierState F :=
  ⟨aux_info.num_variables, aux_info.max_degree, [], []⟩

/-- The round loop of `ZkSumCheck::verify` (translated from `mod.rs`, with
`verify_round_and_update_state` modelled from the spec since `verifier.rs` is
not under the visible sources): for each round index `i`, fetch
`proof.proofs[i]` (the `.expect("proof is incomplete")` is a panic when the
message is missing), append it to the transcript, derive and append the round
challenge, and record the message and the challenge in the state — no
arithmetic check happens here, spec section 4.3.  `k` counts the remaining
rounds. -/
def verifyRounds (chalFn : List (TItem F) → F) (proofs : List (IOPProverMessage F)) :
    Nat → Nat → IOPVerifierState F → List (TItem F) →
    Except RunErr (IOPVerifierState F × List (TItem F))
  | _, 0, vs, hist => .ok (vs, hist)
  | i, k + 1, vs, hist =>
      match proofs[i]? with
      | none => .error (.panicked .proofIsIncomplete)
      | some m =>
          let p := get_and_append_challenge chalFn (hist ++ [TItem.msg m])
          verifyRounds chalFn proofs (i + 1) k
            { vs with
              polynomials_received := vs.polynomials_received ++ [m.evaluations],
              challenges := vs.challenges ++ [p.1] }
            p.2

/-- Modelled from the spec: `check_and_generate_subclaim` of `verifier.rs` is
not under the visible sources.  Spec section 4.3, the deferred batch check:
round 0 must satisfy `message[0](0) + message[0](1) = claimed_sum`; every
later round `i` must satisfy
`message[i](0) + message[i](1) = message[i-1](challenge[i-1])`; on failure the
result is `SumCheckFailed`, otherwise the sub-claim has the accumulated
challenges as its point and `message[n-1](challenge[n-1])` as its expected
evaluation.  All evaluations are Lagrange interpolations of the message's
sample values (see `interpolate`).  The mask metadata parameters are part of
the signature; the spec assigns them no role in the three check steps. -/
def check_and_generate_subclaim (vs : IOPVerifierState F) (asserted_sum : F)
    (mask_poly_nv : Nat) (mask_poly_degree : Nat) :
    Except RunErr (ZkSumCheckSubClaim F) :=
  let n := vs.num_vars
  let msgs := vs.polynomials_received
  let expected : Nat → F := fun i =>
    if i = 0 then asserted_sum
    else interpolate (msgs.getD (i - 1) []) (vs.challenges.getD (i - 1) 0)
  if (List.range n).all (fun i =>
      decide (interpolate (msgs.getD i []) 0 + interpolate (msgs.getD i []) 1 = expected i))
  then
    .ok ⟨vs.challenges, interpolate (msgs.getD (n - 1) []) (vs.challenges.getD (n - 1) 0)⟩
  else .error (.typedErr .sumCheckFailed)

/-- `ZkSumCheck::verify` translated from `mod.rs`: append the same
`aux_info`, replay the round loop on the proof's messages, then run the
deferred batch check. -/
def verify (chalFn : List (TItem F) → F) (claimed_sum : F) (proof : IOPProof F)
    (aux_info : VPAuxInfo) (t : List (TItem F))
    (mask_poly_nv : Nat) (mask_poly_degree : Nat) :
    Except RunErr (ZkSumCheckSubClaim F × List (TItem F)) :=
  match verifyRounds chalFn proof.proofs 0 aux_info.num_variables
      (verifier_init aux_info) (t ++ [TItem.auxInfo aux_info]) with
  | .error e => .error e
  | .ok (vs, hist) =>
      match check_and_generate_subclaim vs claimed_sum mask_poly_nv mask_poly_degree with
      | .ok sc => .ok (sc, hist)
      | .error e => .error e

/-- The transcript items a run of the round loop appends: message first, then
the challenge derived right after it, in round order. -/
def interleave : List (IOPProverMessage F) → List F → List (TItem F)
  | m :: ms, c :: cs => TItem.msg m :: TItem.challenge c :: interleave ms cs
  | _, _ => []

/-! ### Infrastructure: functions that are evaluations of bounded-degree polynomials -/

/-- A function `F → F` is the evaluation of a polynomial of degree at most `d`. -/
def IsPolyDegLE (g : F → F) (d : Nat) : Prop :=
  ∃ p : Polynomial F, p.natDegree ≤ d ∧ ∀ x, g x = Polynomial.eval x p

theorem isPolyDegLE_const (a : F) (d : Nat) : IsPolyDegLE (fun _ => a) d :=
  ⟨Polynomial.C a, by simp, fun x => by simp⟩

theorem isPolyDegLE_mono {g : F → F} {d e : Nat} (hde : d ≤ e) (h : IsPolyDegLE g d) :
    IsPolyDegLE g e := by
  obtain ⟨p, hp, hpe⟩ := h
  exact ⟨p, hp.trans hde, hpe⟩

theorem isPolyDegLE_add {g h : F → F} {d : Nat} (hg : IsPolyDegLE g d) (hh : IsPolyDegLE h d) :
    IsPolyDegLE (fun x => g x + h x) d := by
  obtain ⟨p, hp, hpe⟩ := hg
  obtain ⟨q, hq, hqe⟩ := hh
  refine ⟨p + q, (Polynomial.natDegree_add_le p q).trans (max_le hp hq), fun x => ?_⟩
  simp [hpe, hqe]

theorem isPolyDegLE_mul {g h : F → F} {d e : Nat} (hg : IsPolyDegLE g d) (hh : IsPolyDegLE h e) :
    IsPolyDegLE (fun x => g x * h x) (d + e) := by
  obtain ⟨p, hp, hpe⟩ := hg
  obtain ⟨q, hq, hqe⟩ := hh
  refine ⟨p * q, Polynomial.natDegree_mul_le.trans (by omega), fun x => ?_⟩
  simp [hpe, hqe]

theorem isPolyDegLE_const_mul (a : F) {g : F → F} {d : Nat} (hg : IsPolyDegLE g d) :
    IsPolyDegLE (fun x => a * g x) d := by
  have h := isPolyDegLE_mul (isPolyDegLE_const a 0) hg
  simpa using h

theorem isPolyDegLE_affine (a b : F) : IsPolyDegLE (fun x => (1 - x) * a + x * b) 1 := by
  refine ⟨Polynomial.C a + Polynomial.C (b - a) * Polynomial.X, ?_, fun x => ?_⟩
  · refine (Polynomial.natDegree_add_le _ _).trans (max_le (by simp) ?_)
    exact Polynomial.natDegree_mul_le.trans (by simp)
  · simp; ring

theorem isPolyDegLE_list_sum {α : Type} (l : List α) (g : α → F → F) (d : Nat)
    (h : ∀ a ∈ l, IsPolyDegLE (g a) d) :
    IsPolyDegLE (fun x => (l.map (fun a => g a x)).sum) d := by
  induction l with
  | nil => simpa using isPolyDegLE_const (0 : F) d
  | cons a l ih =>
      simp only [List.map_cons, List.sum_cons]
      exact isPolyDegLE_add (h a (by simp)) (ih (fun b hb => h b (by simp [hb])))

theorem isPolyDegLE_list_prod {α : Type} (l : List α) (g : α → F → F)
    (h : ∀ a ∈ l, IsPolyDegLE (g a) 1) :
    IsPolyDegLE (fun x => (l.map (fun a => g a x)).prod) l.length := by
  induction l with
  | nil => simpa using isPolyDegLE_const (1 : F) 0
  | cons a l ih =>
      simp only [List.map_cons, List.prod_cons, List.length_cons]
      have hmul := isPolyDegLE_mul (h a (by simp)) (ih fun b hb => h b (by simp [hb]))
      simpa [Nat.add_comm] using hmul

/-! ### Infrastructure: hypercube lemmas -/

theorem hypercube_length_mem {n : Nat} {b : List F} (hb : b ∈ hypercube F n) : b.length = n := by
  induction n generalizing b with
  | zero =>
      simp only [hypercube, List.mem_singleton] at hb
      simp [hb]
  | succ n ih =>
      simp only [hypercube, List.mem_append, List.mem_map] at hb
      rcases hb with ⟨c, hc, rfl⟩ | ⟨c, hc, rfl⟩ <;> simp [ih hc]

theorem hypercube_sum_split (k : Nat) (g : List F → F) :
    ((hypercube F (k + 1)).map g).sum =
      ((hypercube F k).map (fun b => g ((0 : F) :: b))).sum +
        ((hypercube F k).map (fun b => g ((1 : F) :: b))).sum := by
  simp [hypercube, Function.comp_def]

theorem sectionSum_zero_add_one (f : List F → F) (rem : Nat) (cs : List F) :
    sectionSum f rem cs 0 + sectionSum f rem cs 1 =
      ((hypercube F (rem + 1)).map (fun b => f (cs ++ b))).sum := by
  rw [hypercube_sum_split]
  rfl

theorem sectionSum_push (f : List F → F) (rem : Nat) (cs : List F) (c : F) :
    sectionSum f rem cs c = ((hypercube F rem).map (fun b => f ((cs ++ [c]) ++ b))).sum := by
  simp [sectionSum, List.append_assoc]

theorem list_sum_map_add {α : Type} (l : List α) (g h : α → F) :
    (l.map (fun a => g a + h a)).sum = (l.map g).sum + (l.map h).sum := by
  induction l with
  | nil => simp
  | cons a l ih => simp only [List.map_cons, List.sum_cons, ih]; ring

theorem list_sum_map_mul_left {α : Type} (l : List α) (r : F) (g : α → F) :
    (l.map (fun a => r * g a)).sum = r * (l.map g).sum := by
  induction l with
  | nil => simp
  | cons a l ih => simp only [List.map_cons, List.sum_cons, ih]; ring

theorem hypercubeSum_combined (poly : VirtualPolynomial F) (mask : RandomMaskPolynomial F)
    (rho : F) (n : Nat) :
    hypercubeSum n (combinedF poly mask rho) =
      hypercubeSum n (vpEval poly) + rho * hypercubeSum n (maskEvalCore mask.evaluations) := by
  unfold hypercubeSum combinedF
  rw [list_sum_map_add (hypercube F n) (vpEval poly)
      (fun b => rho * maskEvalCore mask.evaluations b),
    list_sum_map_mul_left]

/-! ### Infrastructure: Lagrange interpolation over the nodes `0, ..., m-1` -/

theorem interpolate_eq_eval_lagrange (vals : List F) (x : F) :
    interpolate vals x =
      Polynomial.eval x
        (Lagrange.interpolate (Finset.range vals.length) (fun i : Nat => (i : F))
          (fun i => vals.getD i 0)) := by
  rw [interpolate, Lagrange.interpolate_apply, Polynomial.eval_finset_sum]
  refine Finset.sum_congr rfl (fun i hi => ?_)
  rw [Polynomial.eval_mul, Polynomial.eval_C]
  congr 1
  simp only [Lagrange.basis, Polynomial.eval_prod]
  refine Finset.prod_congr rfl (fun j hj => ?_)
  simp [Lagrange.basisDivisor, div_eq_mul_inv, mul_comm]

theorem natCast_injOn_range [CharZero F] (m : Nat) :
    Set.InjOn (fun i : Nat => (i : F)) (Finset.range m) :=
  fun p _ q _ hpq => Nat.cast_injective hpq

/-- The interpolation of any `m` sample values is a polynomial of degree at
most `m - 1`. -/
theorem isPolyDegLE_interpolate [CharZero F] (vals : List F) :
    IsPolyDegLE (fun x => interpolate vals x) (vals.length - 1) := by
  refine ⟨Lagrange.interpolate (Finset.range vals.length) (fun i : Nat => (i : F))
      (fun i => vals.getD i 0), ?_, fun x => interpolate_eq_eval_lagrange vals x⟩
  set p := Lagrange.interpolate (Finset.range vals.length) (fun i : Nat => (i : F))
      (fun i => vals.getD i 0) with hp
  rcases eq_or_ne p 0 with h0 | h0
  · simp [h0]
  · have hd := Lagrange.degree_interpolate_lt (fun i => vals.getD i 0)
      (natCast_injOn_range vals.length)
    rw [Finset.card_range] at hd
    have hnd : p.natDegree < vals.length :=
      (Polynomial.natDegree_lt_iff_degree_lt h0).mpr (by exact_mod_cast hd)
    omega

/-- Exactness of Lagrange interpolation: sampling a degree-`≤ d` polynomial
function at the `m > d` nodes `0, ..., m-1` and interpolating recovers the
function everywhere. -/
theorem interpolate_exact [CharZero F] {g : F → F} {d : Nat} (hg : IsPolyDegLE g d)
    (m : Nat) (hm : d < m) (x : F) :
    interpolate ((List.range m).map (fun j : Nat => g (j : F))) x = g x := by
  obtain ⟨p, hp, hpe⟩ := hg
  have hlen : ((List.range m).map (fun j : Nat => g (j : F))).length = m := by simp
  rw [interpolate_eq_eval_lagrange, hlen]
  have hvals : ∀ i ∈ Finset.range m,
      ((List.range m).map (fun j : Nat => g (j : F))).getD i 0 =
        (fun i : Nat => p.eval ((fun i : Nat => (i : F)) i)) i := by
    intro i hi
    rw [Finset.mem_range] at hi
    simp [List.getD_eq_getD_get?, List.get?_eq_getElem?, List.getElem?_map,
      List.getElem?_range, hi, hpe]
  rw [Lagrange.interpolate_eq_of_values_eq_on _ _ hvals,
    ← Lagrange.eq_interpolate (natCast_injOn_range m)
      (by rw [Finset.card_range]
          exact lt_of_le_of_lt Polynomial.degree_le_natDegree
            (by exact_mod_cast lt_of_le_of_lt hp hm))]
  exact (hpe x).symm

/-! ### Infrastructure: degree bounds for the honest round polynomials -/

theorem isPolyDegLE_mle (pre suf table : List F) :
    IsPolyDegLE (fun x => mleEval (pre ++ x :: suf) table) 1 := by
  induction pre generalizing table with
  | nil =>
      simp only [List.nil_append, mleEval]
      exact isPolyDegLE_affine _ _
  | cons c pre ih =>
      simp only [List.cons_append, mleEval]
      exact isPolyDegLE_add (isPolyDegLE_const_mul _ (ih _)) (isPolyDegLE_const_mul _ (ih _))

theorem isPolyDegLE_vpEval (poly : VirtualPolynomial F) (d : Nat)
    (hwf : ∀ pr ∈ poly.products, (pr.2).length ≤ d) (pre suf : List F) :
    IsPolyDegLE (fun x => vpEval poly (pre ++ x :: suf)) d := by
  unfold vpEval
  refine isPolyDegLE_list_sum poly.products
    (fun pr x => pr.1 * ((pr.2).map (fun tbl => mleEval (pre ++ x :: suf) tbl)).prod) d ?_
  intro pr hpr
  refine isPolyDegLE_const_mul _ (isPolyDegLE_mono (hwf pr hpr) ?_)
  exact isPolyDegLE_list_prod (pr.2) (fun tbl x => mleEval (pre ++ x :: suf) tbl)
    (fun tbl _ => isPolyDegLE_mle pre suf tbl)

theorem isPolyDegLE_maskEvalCore [CharZero F] (mdeg : Nat) (rows : List (List F))
    (hrows : ∀ r ∈ rows, r.length = mdeg + 1) (pre suf : List F)
    (hlen : rows.length = pre.length + 1 + suf.length) :
    IsPolyDegLE (fun x => maskEvalCore rows (pre ++ x :: suf)) mdeg := by
  induction pre generalizing rows with
  | nil =>
      cases rows with
      | nil => simp only [List.length_nil] at hlen; omega
      | cons r0 rest =>
        have hr0 : r0.length = mdeg + 1 := hrows r0 (by simp)
        simp only [List.nil_append, maskEvalCore, List.zip_cons_cons, List.map_cons,
          List.sum_cons]
        refine isPolyDegLE_add ?_ (isPolyDegLE_const _ _)
        have h := isPolyDegLE_interpolate r0
        rwa [hr0, Nat.add_sub_cancel] at h
  | cons c pre ih =>
      cases rows with
      | nil => simp only [List.length_nil] at hlen; omega
      | cons r0 rest =>
        simp only [List.cons_append, maskEvalCore, List.zip_cons_cons, List.map_cons,
          List.sum_cons]
        refine isPolyDegLE_add (isPolyDegLE_const _ _) ?_
        have hlen2 : rest.length = pre.length + 1 + suf.length := by
          simp only [List.length_cons] at hlen ⊢
          omega
        exact ih rest (fun r hr => hrows r (by simp [hr])) hlen2

theorem isPolyDegLE_sectionSum [CharZero F] (poly : VirtualPolynomial F)
    (mask : RandomMaskPolynomial F) (rho : F) (rem : Nat) (cs : List F) (mdeg : Nat)
    (hwf : ∀ pr ∈ poly.products, (pr.2).length ≤ poly.aux_info.max_degree)
    (hrows : ∀ r ∈ mask.evaluations, r.length = mdeg + 1)
    (hlen : mask.evaluations.length = cs.length + 1 + rem) :
    IsPolyDegLE (sectionSum (combinedF poly mask rho) rem cs)
      (max poly.aux_info.max_degree mdeg) := by
  unfold sectionSum
  refine isPolyDegLE_list_sum (hypercube F rem)
    (fun b x => combinedF poly mask rho (cs ++ x :: b)) _ ?_
  intro b hb
  unfold combinedF
  refine isPolyDegLE_add (isPolyDegLE_mono (le_max_left _ _) ?_)
    (isPolyDegLE_const_mul rho (isPolyDegLE_mono (le_max_right _ _) ?_))
  · exact isPolyDegLE_vpEval poly _ hwf cs b
  · exact isPolyDegLE_maskEvalCore mdeg mask.evaluations hrows cs b
      (by rw [hlen, hypercube_length_mem hb])

/-- The verifier's interpolation of an honest round message recovers the
honest round polynomial at every point. -/
theorem interpolate_roundMessage [CharZero F] (f : List F → F) (rem : Nat) (cs : List F)
    (D : Nat) (hdeg : IsPolyDegLE (sectionSum f rem cs) D) (x : F) :
    interpolate (roundMessage f rem cs D).evaluations x = sectionSum f rem cs x :=
  interpolate_exact hdeg (D + 1) (Nat.lt_succ_self D) x

/-! ### Infrastructure: structure of a successful prover run -/

theorem drop_eq_cons_getElem {α : Type} :
    ∀ (l : List α) (i : Nat) (m : α) (rest : List α),
      l.drop i = m :: rest → l[i]? = some m ∧ l.drop (i + 1) = rest := by
  intro l
  induction l with
  | nil => intro i m rest h; simp [List.drop_nil] at h
  | cons a l ih =>
      intro i m rest h
      cases i with
      | zero =>
          rw [List.drop_zero] at h
          cases h
          exact ⟨by simp, by simp⟩
      | succ i =>
          rw [List.drop_succ_cons] at h
          simpa [List.getElem?_cons_succ, List.drop_succ_cons] using ih i m rest h

/-- Characterization of a successful run of the prover's round loop: the
final challenge vector extends the initial one by `k` fresh challenges, one
message per round is produced, the transcript grows by the message/challenge
interleaving, every fresh challenge differs from 0 and 1, and the `j`-th
message is the honest round message for the challenge prefix bound so far. -/
theorem proveRounds_ok {f : List F → F} {D : Nat} {chalFn : List (TItem F) → F} :
    ∀ {k : Nat} {cs : List F} {hist : List (TItem F)} {msgs : List (IOPProverMessage F)}
      {cs2 : List F} {hist2 : List (TItem F)},
      proveRounds f D chalFn k cs hist = .ok (msgs, cs2, hist2) →
      ∃ newcs : List F,
        cs2 = cs ++ newcs ∧ newcs.length = k ∧ msgs.length = k ∧
        hist2 = hist ++ interleave msgs newcs ∧
        (∀ c ∈ newcs, c ≠ 0 ∧ c ≠ 1) ∧
        (∀ j, j < k → msgs[j]? = some (roundMessage f (k - 1 - j) (cs ++ newcs.take j) D)) := by
  intro k
  induction k with
  | zero =>
      intro cs hist msgs cs2 hist2 h
      simp only [proveRounds, Except.ok.injEq, Prod.mk.injEq] at h
      obtain ⟨rfl, rfl, rfl⟩ := h
      exact ⟨[], by simp [interleave], by simp, by simp, by simp [interleave], by simp,
        by intro j hj; omega⟩
  | succ k ih =>
      intro cs hist msgs cs2 hist2 h
      simp only [proveRounds] at h
      split at h
      · exact absurd h (by simp)
      split at h
      · exact absurd h (by simp)
      rename_i hc0 hc1
      split at h
      case h_2 => exact absurd h (by simp)
      case h_1 msgs0 cs3 hist3 heq =>
        simp only [Except.ok.injEq, Prod.mk.injEq] at h
        obtain ⟨rfl, rfl, rfl⟩ := h
        obtain ⟨ncs0, hcs, hlen, hmlen, hhist, hnz, hmsg⟩ := ih heq
        refine ⟨chalFn (hist ++ [TItem.msg (roundMessage f k cs D)]) :: ncs0, ?_, ?_, ?_, ?_, ?_, ?_⟩
        · rw [hcs]; simp
        · simp [hlen]
        · simp [hmlen]
        · rw [hhist]; simp [interleave]
        · intro c' hc'
          rcases List.mem_cons.mp hc' with rfl | hmem
          · exact ⟨hc0, hc1⟩
          · exact hnz c' hmem
        · intro j hj
          cases j with
          | zero => simp [roundMessage]
          | succ j =>
              have hjk : j < k := by omega
              have hstep := hmsg j hjk
              have harith : k + 1 - 1 - (j + 1) = k - 1 - j := by omega
              simp only [List.getElem?_cons_succ, harith, List.take_succ_cons,
                List.cons_append, List.append_assoc, List.singleton_append] at hstep ⊢
              exact hstep

/-- Simulation of the verifier's round loop on the messages of a successful
prover run: with the same challenge function and the same transcript history,
the verifier derives the same challenge sequence and ends with the same
history. -/
theorem verifyRounds_sim {f : List F → F} {D : Nat} {chalFn : List (TItem F) → F} :
    ∀ {k : Nat} {cs : List F} {hist : List (TItem F)} {msgs : List (IOPProverMessage F)}
      {cs2 : List F} {hist2 : List (TItem F)},
      proveRounds f D chalFn k cs hist = .ok (msgs, cs2, hist2) →
      ∀ (proofs : List (IOPProverMessage F)) (i : Nat), proofs.drop i = msgs →
      ∀ (vs : IOPVerifierState F),
      ∃ newcs : List F, cs2 = cs ++ newcs ∧
        verifyRounds chalFn proofs i k vs hist =
          .ok ({ vs with
                  polynomials_received :=
                    vs.polynomials_received ++ msgs.map (fun m => m.evaluations),
                  challenges := vs.challenges ++ newcs }, hist2) := by
  intro k
  induction k with
  | zero =>
      intro cs hist msgs cs2 hist2 h proofs i hdrop vs
      simp only [proveRounds, Except.ok.injEq, Prod.mk.injEq] at h
      obtain ⟨rfl, rfl, rfl⟩ := h
      exact ⟨[], by simp, by simp [verifyRounds]⟩
  | succ k ih =>
      intro cs hist msgs cs2 hist2 h proofs i hdrop vs
      simp only [proveRounds] at h
      split at h
      · exact absurd h (by simp)
      split at h
      · exact absurd h (by simp)
      split at h
      case h_2 => exact absurd h (by simp)
      case h_1 msgs0 cs3 hist3 heq =>
        simp only [Except.ok.injEq, Prod.mk.injEq] at h
        obtain ⟨rfl, rfl, rfl⟩ := h
        obtain ⟨hget, hdrop2⟩ := drop_eq_cons_getElem proofs i _ _ hdrop
        obtain ⟨ncs0, hcs, hrec⟩ := ih heq proofs (i + 1) hdrop2
          { vs with
            polynomials_received :=
              vs.polynomials_received ++ [(roundMessage f k cs D).evaluations],
            challenges :=
              vs.challenges ++ [chalFn (hist ++ [TItem.msg (roundMessage f k cs D)])] }
        refine ⟨chalFn (hist ++ [TItem.msg (roundMessage f k cs D)]) :: ncs0, ?_, ?_⟩
        · rw [hcs]; simp
        · rw [verifyRounds, hget]
          simp only [get_and_append_challenge]
          rw [hrec]
          simp

/-- A successful `prove` implies the init validation passed and the round
loop succeeded on the proof's components. -/
theorem prove_ok_elim {chalFn : List (TItem F) → F} {poly : VirtualPolynomial F}
    {mask : RandomMaskPolynomial F} {rho : F} {t : List (TItem F)} {pf : IOPProof F}
    {histP : List (TItem F)} (h : prove chalFn poly mask rho t = .ok (pf, histP)) :
    (mask.evaluations.length = poly.aux_info.num_variables ∧
      poly.aux_info.max_degree ≤ maskDegree mask) ∧
    proveRounds (combinedF poly mask rho) (degreeBound poly mask) chalFn
      poly.aux_info.num_variables [] (t ++ [TItem.auxInfo poly.aux_info]) =
      .ok (pf.proofs, pf.point, histP) := by
  rw [prove] at h
  split at h
  case isTrue hv =>
    split at h
    case h_1 msgs cs hist heq =>
      simp only [Except.ok.injEq, Prod.mk.injEq] at h
      obtain ⟨rfl, rfl⟩ := h
      exact ⟨hv, heq⟩
    case h_2 => exact absurd h (by simp)
  case isFalse => exact absurd h (by simp)

theorem getD_of_getElem? {α : Type} {l : List α} {i : Nat} {a : α} (d : α)
    (h : l[i]? = some a) : l.getD i d = a := by
  rw [List.getD_eq_getD_get?, List.get?_eq_getElem?, h]
  rfl

theorem take_succ_getD {α : Type} {l : List α} {i : Nat} (h : i < l.length) (d : α) :
    l.take (i + 1) = l.take i ++ [l.getD i d] := by
  rw [List.take_succ, List.getElem?_eq_getElem h,
    getD_of_getElem? d (List.getElem?_eq_getElem h)]
  rfl

/-- Interpolation hits the sample values at the nodes themselves. -/
theorem interpolate_at_node [CharZero F] (vals : List F) (i : Nat) (hi : i < vals.length) :
    interpolate vals (i : F) = vals.getD i 0 := by
  rw [interpolate_eq_eval_lagrange]
  exact Lagrange.eval_interpolate_at_node _ (natCast_injOn_range _) (Finset.mem_range.mpr hi)

/-- The verifier's round loop panics when the proof runs out of messages. -/
theorem verifyRounds_incomplete {chalFn : List (TItem F) → F}
    {proofs : List (IOPProverMessage F)} :
    ∀ (k i : Nat) (vs : IOPVerifierState F) (hist : List (TItem F)),
      proofs.length < i + k → i ≤ proofs.length →
      verifyRounds chalFn proofs i k vs hist = .error (.panicked .proofIsIncomplete) := by
  intro k
  induction k with
  | zero => intro i vs hist h1 h2; omega
  | succ k ih =>
      intro i vs hist h1 h2
      rcases Nat.lt_or_ge i proofs.length with hlt | hge
      · rw [verifyRounds]
        simp only [List.getElem?_eq_getElem hlt]
        exact ih (i + 1) _ _ (by omega) (by omega)
      · have hi : proofs.length ≤ i := hge
        rw [verifyRounds, List.getElem?_eq_none hi]

/-! ### Concrete example instances used by the witnesses -/

/-- Example aux info: one variable, `max_degree` 1, one product. -/
def exAux : VPAuxInfo := ⟨1, 1, 1⟩

/-- Example virtual polynomial over `ℚ`: the single multilinear factor with
hypercube table `[3, 5]`. -/
def exPoly : VirtualPolynomial ℚ := ⟨exAux, [(1, [[3, 5]])]⟩

/-- Example mask over `ℚ`: one zero row of width 2 (degree bound 1). -/
def exMask : RandomMaskPolynomial ℚ := ⟨[[0, 0]]⟩

/-- Example challenge function: the constant 2 (neither 0 nor 1). -/
def exChal : List (TItem ℚ) → ℚ := fun _ => 2

/-- Example degenerate challenge function: the constant 0. -/
def exChal0 : List (TItem ℚ) → ℚ := fun _ => 0

/-- The proof `prove exChal exPoly exMask 1 []` produces. -/
def exProof : IOPProof ℚ := ⟨[2], [⟨[3, 5]⟩]⟩

/-- The transcript history `prove exChal exPoly exMask 1 []` produces. -/
def exHist : List (TItem ℚ) :=
  [TItem.auxInfo exAux, TItem.msg ⟨[3, 5]⟩, TItem.challenge 2]

/-- Concrete evaluation of interpolation on the two-sample lists used by the
witnesses. -/
theorem interpolate_pair (a b x : F) :
    interpolate [a, b] x = a * ((x - 1) / (0 - 1)) + b * ((x - 0) / (1 - 0)) := by
  have h0 : (Finset.range 2).erase 0 = {1} := by decide
  have h1 : (Finset.range 2).erase 1 = {0} := by decide
  rw [interpolate]
  simp [Finset.sum_range_succ, h0, h1]

/-- The witnesses' concrete run: `prove` on the example instance returns the
example proof and history. -/
theorem exProve_eval : prove exChal exPoly exMask 1 [] = .ok (exProof, exHist) := by
  have hmask0 : ∀ x : ℚ, interpolate [0, 0] x = 0 := by
    intro x
    rw [interpolate_pair]
    norm_num
  have hmsg : roundMessage (combinedF exPoly exMask 1) 0 [] 1 = ⟨[3, 5]⟩ := by
    simp only [roundMessage, sectionSum, hypercube, combinedF, vpEval, mleEval,
      maskEvalCore, exPoly, exMask, exAux, List.range_succ, List.range_zero]
    norm_num [hmask0, mleEval]
  rw [prove]
  rw [if_pos (by norm_num [exMask, exPoly, exAux, maskDegree])]
  have hD : degreeBound exPoly exMask = 1 := by norm_num [degreeBound, exPoly, exAux,
    exMask, maskDegree]
  have hnv : exPoly.aux_info.num_variables = 1 := rfl
  rw [hD, hnv, proveRounds, hmsg]
  rw [if_neg (by norm_num [exChal]), if_neg (by norm_num [exChal])]
  rw [proveRounds]
  simp [exChal, exProof, exHist, exAux, exPoly]

/-! ### Claim theorems -/

/-- C5: Round-count invariant — for every proof returned successfully by
`prove`, the number of round messages in the proof equals
`aux_info.num_variables` of the input polynomial. -/
theorem prove_round_count {chalFn : List (TItem F) → F} {poly : VirtualPolynomial F}
    {mask : RandomMaskPolynomial F} {rho : F} {t : List (TItem F)} {pf : IOPProof F}
    {histP : List (TItem F)} (hp : prove chalFn poly mask rho t = .ok (pf, histP)) :
    pf.proofs.length = poly.aux_info.num_variables := by
  obtain ⟨-, heq⟩ := prove_ok_elim hp
  obtain ⟨newcs, -, -, hmlen, -, -, -⟩ := proveRounds_ok heq
  exact hmlen

/-- Witness for C5 at a concrete run. -/
theorem prove_round_count_witness : exProof.proofs.length = exPoly.aux_info.num_variables :=
  @prove_round_count ℚ _ _ exChal exPoly exMask 1 [] exProof exHist exProve_eval

/-- C6: Challenge non-degeneracy — every round challenge produced inside a
successful `prove` (that is, every coordinate of the returned proof's point)
is neither the additive nor the multiplicative identity of the field. -/
theorem challenge_non_degenerate {chalFn : List (TItem F) → F} {poly : VirtualPolynomial F}
    {mask : RandomMaskPolynomial F} {rho : F} {t : List (TItem F)} {pf : IOPProof F}
    {histP : List (TItem F)} (hp : prove chalFn poly mask rho t = .ok (pf, histP)) :
    ∀ c ∈ pf.point, c ≠ 0 ∧ c ≠ 1 := by
  obtain ⟨-, heq⟩ := prove_ok_elim hp
  obtain ⟨newcs, hcs, -, -, -, hnz, -⟩ := proveRounds_ok heq
  rw [List.nil_append] at hcs
  intro c hc
  exact hnz c (hcs ▸ hc)

/-- Witness for C6 at a concrete run: the one coordinate of the example
proof's point is the challenge 2, which is neither 0 nor 1. -/
theorem challenge_non_degenerate_witness : (2 : ℚ) ≠ 0 ∧ (2 : ℚ) ≠ 1 :=
  @challenge_non_degenerate ℚ _ _ exChal exPoly exMask 1 [] exProof exHist exProve_eval 2
    (List.mem_singleton.mpr rfl)

/-- C9: Determinism — two runs of `prove` on the same polynomial, mask and
`rho`, with transcripts holding identical append histories, return identical
proofs (and identical final histories).  In this embedding `prove` draws no
randomness outside the transcript, so determinism is inherent: the proof is a
function of the inputs and the history. -/
theorem prove_deterministic {chalFn : List (TItem F) → F} {poly : VirtualPolynomial F}
    {mask : RandomMaskPolynomial F} {rho : F} {t1 t2 : List (TItem F)}
    {pf1 pf2 : IOPProof F} {hist1 hist2 : List (TItem F)} (ht : t1 = t2)
    (h1 : prove chalFn poly mask rho t1 = .ok (pf1, hist1))
    (h2 : prove chalFn poly mask rho t2 = .ok (pf2, hist2)) :
    pf1 = pf2 ∧ hist1 = hist2 := by
  subst ht
  rw [h1] at h2
  simpa using h2

/-- Witness for C9 at a concrete run. -/
theorem prove_deterministic_witness : exProof = exProof ∧ exHist = exHist :=
  @prove_deterministic ℚ _ _ exChal exPoly exMask 1 [] [] exProof exProof exHist exHist
    rfl exProve_eval exProve_eval

/-- C10: `extract_sum` unconditionally indexes the first round message and
its first two evaluation entries; on a proof with no round messages, or whose
first message carries fewer than two evaluations, it panics with an
out-of-bounds access instead of returning an error value. -/
theorem extract_sum_panics_on_short_proof (pf : IOPProof F) :
    (pf.proofs = [] → extract_sum pf = .error (.panicked .indexOutOfBounds)) ∧
    (∀ m rest, pf.proofs = m :: rest → m.evaluations.length < 2 →
      extract_sum pf = .error (.panicked .indexOutOfBounds)) := by
  constructor
  · intro h
    simp [extract_sum, h]
  · intro m rest h hlen
    rw [extract_sum, h]
    simp only [List.getElem?_cons_zero]
    rcases hev : m.evaluations with - | ⟨e0, - | ⟨e1, es⟩⟩
    · simp
    · simp
    · rw [hev] at hlen
      simp only [List.length_cons] at hlen
      omega

/-- Witness for C10: both panic branches at concrete proofs. -/
theorem extract_sum_panics_on_short_proof_witness :
    extract_sum (⟨[], []⟩ : IOPProof ℚ) = .error (.panicked .indexOutOfBounds) ∧
    extract_sum (⟨[], [⟨[7]⟩]⟩ : IOPProof ℚ) = .error (.panicked .indexOutOfBounds) :=
  ⟨(extract_sum_panics_on_short_proof (⟨[], []⟩ : IOPProof ℚ)).1 rfl,
    (extract_sum_panics_on_short_proof (⟨[], [⟨[7]⟩]⟩ : IOPProof ℚ)).2 ⟨[7]⟩ [] rfl
      (by decide)⟩

/-- C3 counterexample: on a run whose first transcript-derived challenge is
the additive identity, `prove` aborts with a failed assertion (a panic); it
does not return any typed error value, in particular no recoverable
`DegenerateChallenge` error. -/
theorem degenerate_challenge_counterexample :
    prove exChal0 exPoly exMask 1 [] = .error (.panicked .challengeIsZero) ∧
    ∀ e : PolyIOPErrors, prove exChal0 exPoly exMask 1 [] ≠ .error (.typedErr e) := by
  have h : prove exChal0 exPoly exMask 1 [] = .error (.panicked .challengeIsZero) := by
    rw [prove]
    rw [if_pos (by norm_num [exMask, exPoly, exAux, maskDegree])]
    have hnv : exPoly.aux_info.num_variables = 1 := rfl
    rw [hnv, proveRounds]
    simp [exChal0]
  exact ⟨h, fun e => by rw [h]; simp⟩

/-- Every run of the prover's round loop, from any state and at any round,
has exactly three possible outcomes: success, or one of the two
degenerate-challenge assertion panics.  A degenerate challenge at any round
therefore forces the corresponding panic, since the success branch only
arises when every round's assertion passed. -/
theorem proveRounds_outcomes (f : List F → F) (D : Nat) (chalFn : List (TItem F) → F) :
    ∀ (k : Nat) (cs : List F) (hist : List (TItem F)),
      (∃ msgs cs2 hist2, proveRounds f D chalFn k cs hist = .ok (msgs, cs2, hist2)) ∨
      proveRounds f D chalFn k cs hist = .error (.panicked .challengeIsZero) ∨
      proveRounds f D chalFn k cs hist = .error (.panicked .challengeIsOne) := by
  intro k
  induction k with
  | zero => intro cs hist; exact Or.inl ⟨[], cs, hist, rfl⟩
  | succ k ih =>
      intro cs hist
      rw [proveRounds]
      by_cases h0 : chalFn (hist ++ [TItem.msg (roundMessage f k cs D)]) = 0
      · rw [if_pos h0]
        exact Or.inr (Or.inl rfl)
      · rw [if_neg h0]
        by_cases h1 : chalFn (hist ++ [TItem.msg (roundMessage f k cs D)]) = 1
        · rw [if_pos h1]
          exact Or.inr (Or.inr rfl)
        · rw [if_neg h1]
          rcases ih (cs ++ [chalFn (hist ++ [TItem.msg (roundMessage f k cs D)])])
              ((hist ++ [TItem.msg (roundMessage f k cs D)]) ++
                [TItem.challenge (chalFn (hist ++ [TItem.msg (roundMessage f k cs D)]))])
            with ⟨msgs, cs2, hist2, hok⟩ | hp0 | hp1
          · exact Or.inl ⟨roundMessage f k cs D :: msgs, cs2, hist2, by rw [hok]⟩
          · exact Or.inr (Or.inl (by rw [hp0]))
          · exact Or.inr (Or.inr (by rw [hp1]))

/-- C3 (amended): `prove` never returns a typed `PolyIOPErrors` value on
validly matched inputs — in particular no recoverable `DegenerateChallenge`
error exists for the caller — and every run either succeeds with every
transcript-derived challenge (every coordinate of the returned point, which
collects all challenges of all rounds) different from the field's 0 and 1,
or aborts with the corresponding failed assertion (a panic).  Hence whenever
a transcript-derived challenge of any round equals 0 or 1, `prove` aborts
the process instead of returning an error. -/
theorem degenerate_challenge_panics {chalFn : List (TItem F) → F}
    {poly : VirtualPolynomial F} {mask : RandomMaskPolynomial F} {rho : F}
    {t : List (TItem F)}
    (hv : mask.evaluations.length = poly.aux_info.num_variables ∧
      poly.aux_info.max_degree ≤ maskDegree mask) :
    (∀ e : PolyIOPErrors, prove chalFn poly mask rho t ≠ .error (.typedErr e)) ∧
    ((∃ pf histP, prove chalFn poly mask rho t = .ok (pf, histP) ∧
        ∀ c ∈ pf.point, c ≠ 0 ∧ c ≠ 1) ∨
      prove chalFn poly mask rho t = .error (.panicked .challengeIsZero) ∨
      prove chalFn poly mask rho t = .error (.panicked .challengeIsOne)) := by
  rcases proveRounds_outcomes (combinedF poly mask rho) (degreeBound poly mask) chalFn
      poly.aux_info.num_variables [] (t ++ [TItem.auxInfo poly.aux_info])
    with ⟨msgs, cs2, hist2, hok⟩ | hp0 | hp1
  · have hprove : prove chalFn poly mask rho t = .ok (⟨cs2, msgs⟩, hist2) := by
      rw [prove, if_pos hv, hok]
    refine ⟨fun e => by rw [hprove]; simp, Or.inl ⟨⟨cs2, msgs⟩, hist2, hprove, ?_⟩⟩
    obtain ⟨newcs, hcs, -, -, -, hnz, -⟩ := proveRounds_ok hok
    rw [List.nil_append] at hcs
    intro c hc
    exact hnz c (hcs ▸ hc)
  · have hprove : prove chalFn poly mask rho t = .error (.panicked .challengeIsZero) := by
      rw [prove, if_pos hv, hp0]
    exact ⟨fun e => by rw [hprove]; simp, Or.inr (Or.inl hprove)⟩
  · have hprove : prove chalFn poly mask rho t = .error (.panicked .challengeIsOne) := by
      rw [prove, if_pos hv, hp1]
    exact ⟨fun e => by rw [hprove]; simp, Or.inr (Or.inr hprove)⟩

/-- Aux info of the two-variable witness instance for the amended C3. -/
def exAux2 : VPAuxInfo := ⟨1, 2, 1⟩

/-- Two-variable example polynomial over `ℚ`: the single multilinear factor
with hypercube table `[1, 2, 3, 4]`. -/
def exPoly2 : VirtualPolynomial ℚ := ⟨exAux2, [(1, [[1, 2, 3, 4]])]⟩

/-- Two-variable example mask over `ℚ`: two zero rows of width 2. -/
def exMask2 : RandomMaskPolynomial ℚ := ⟨[[0, 0], [0, 0]]⟩

/-- Challenge function that is non-degenerate in round 0 (history length 2:
aux info plus the first message) and returns the degenerate challenge 0 in
round 1 (history length 4). -/
def exChalLater : List (TItem ℚ) → ℚ := fun h => if h.length ≤ 2 then 2 else 0

/-- Witness for the amended C3 at a concrete run whose degenerate challenge
arises in the second round, not the first: the run panics on the zero
assertion of round 1 and returns no typed error. -/
theorem degenerate_challenge_panics_witness :
    (∀ e : PolyIOPErrors, prove exChalLater exPoly2 exMask2 1 [] ≠ .error (.typedErr e)) ∧
    prove exChalLater exPoly2 exMask2 1 [] = .error (.panicked .challengeIsZero) := by
  have h := @degenerate_challenge_panics ℚ _ _ exChalLater exPoly2 exMask2 1 []
    (by norm_num [exMask2, exPoly2, exAux2, maskDegree])
  have hrun : prove exChalLater exPoly2 exMask2 1 [] =
      .error (.panicked .challengeIsZero) := by
    rw [prove]
    rw [if_pos (by norm_num [exMask2, exPoly2, exAux2, maskDegree])]
    rw [show exPoly2.aux_info.num_variables = 2 from rfl]
    rw [proveRounds]
    rw [if_neg (by norm_num [exChalLater]), if_neg (by norm_num [exChalLater])]
    rw [proveRounds]
    rw [if_pos (by norm_num [exChalLater])]
  exact ⟨h.1, hrun⟩

/-- C4 counterexample: on a proof with no round messages and one declared
variable, `verify` aborts with the `proof is incomplete` panic of the
`.expect` call; it does not return a typed `ProofIncomplete` error. -/
theorem incomplete_proof_counterexample :
    verify exChal 8 (⟨[], []⟩ : IOPProof ℚ) exAux [] 1 1 =
      .error (.panicked .proofIsIncomplete) ∧
    verify exChal 8 (⟨[], []⟩ : IOPProof ℚ) exAux [] 1 1 ≠
      .error (.typedErr .proofIncomplete) := by
  have hvr : verifyRounds exChal (⟨[], []⟩ : IOPProof ℚ).proofs 0 exAux.num_variables
      (verifier_init exAux) (([] : List (TItem ℚ)) ++ [TItem.auxInfo exAux]) =
      .error (.panicked .proofIsIncomplete) :=
    verifyRounds_incomplete _ _ _ _ (by decide) (by decide)
  have h : verify exChal 8 (⟨[], []⟩ : IOPProof ℚ) exAux [] 1 1 =
      .error (.panicked .proofIsIncomplete) := by
    rw [verify, hvr]
  exact ⟨h, by rw [h]; simp⟩

/-- C4 (amended): for every proof carrying fewer round messages than
`aux_info.num_variables`, `verify` panics with the `proof is incomplete`
abort of the `.expect` call instead of returning a typed error. -/
theorem incomplete_proof_panics {chalFn : List (TItem F) → F} (claimed : F)
    (pf : IOPProof F) (aux : VPAuxInfo) (t : List (TItem F)) (mnv mdeg : Nat)
    (hlt : pf.proofs.length < aux.num_variables) :
    verify chalFn claimed pf aux t mnv mdeg = .error (.panicked .proofIsIncomplete) ∧
    ∀ e : PolyIOPErrors, verify chalFn claimed pf aux t mnv mdeg ≠
      .error (.typedErr e) := by
  have h : verifyRounds chalFn pf.proofs 0 aux.num_variables (verifier_init aux)
      (t ++ [TItem.auxInfo aux]) = .error (.panicked .proofIsIncomplete) :=
    verifyRounds_incomplete aux.num_variables 0 _ _ (by omega) (by omega)
  have hv : verify chalFn claimed pf aux t mnv mdeg =
      .error (.panicked .proofIsIncomplete) := by
    rw [verify, h]
  exact ⟨hv, by rw [hv]; simp⟩

/-- Witness for the amended C4 at a concrete input. -/
theorem incomplete_proof_panics_witness :
    verify exChal 8 (⟨[], []⟩ : IOPProof ℚ) exAux [] 1 1 =
      .error (.panicked .proofIsIncomplete) ∧
    ∀ e : PolyIOPErrors, verify exChal 8 (⟨[], []⟩ : IOPProof ℚ) exAux [] 1 1 ≠
      .error (.typedErr e) :=
  incomplete_proof_panics 8 (⟨[], []⟩ : IOPProof ℚ) exAux [] 1 1 (by norm_num [exAux])

/-- The deferred batch-check equations of spec section 4.3 as a predicate on
the verifier's final state: the round-0 message evaluates (at 0 plus at 1) to
the asserted sum, and every later round's message evaluates (at 0 plus at 1)
to the previous message's value at the previous challenge. -/
def roundChecksPass (vs : IOPVerifierState F) (asserted_sum : F) : Prop :=
  (interpolate (vs.polynomials_received.getD 0 []) 0 +
      interpolate (vs.polynomials_received.getD 0 []) 1 = asserted_sum) ∧
  ∀ i, 0 < i → i < vs.num_vars →
    interpolate (vs.polynomials_received.getD i []) 0 +
      interpolate (vs.polynomials_received.getD i []) 1 =
    interpolate (vs.polynomials_received.getD (i - 1) [])
      (vs.challenges.getD (i - 1) 0)

/-- C2: the deferred batch check fails with `SumCheckFailed` unless the
round-0 message evaluated at 0 plus at 1 equals the claimed sum and every
later round's message evaluated at 0 plus at 1 equals the previous message at
the previous challenge; when all equations hold it returns the sub-claim
whose point is the accumulated challenge vector and whose expected evaluation
is the last message at the last challenge. -/
theorem check_and_generate_subclaim_spec (vs : IOPVerifierState F) (asserted_sum : F)
    (mask_poly_nv mask_poly_degree : Nat) (hn : 0 < vs.num_vars) :
    (roundChecksPass vs asserted_sum →
      check_and_generate_subclaim vs asserted_sum mask_poly_nv mask_poly_degree =
        .ok ⟨vs.challenges,
          interpolate (vs.polynomials_received.getD (vs.num_vars - 1) [])
            (vs.challenges.getD (vs.num_vars - 1) 0)⟩) ∧
    (¬ roundChecksPass vs asserted_sum →
      check_and_generate_subclaim vs asserted_sum mask_poly_nv mask_poly_degree =
        .error (.typedErr .sumCheckFailed)) := by
  have hiff : ((List.range vs.num_vars).all (fun i =>
      decide (interpolate (vs.polynomials_received.getD i []) 0 +
        interpolate (vs.polynomials_received.getD i []) 1 =
        if i = 0 then asserted_sum
        else interpolate (vs.polynomials_received.getD (i - 1) [])
          (vs.challenges.getD (i - 1) 0))) = true) ↔
      roundChecksPass vs asserted_sum := by
    rw [List.all_eq_true]
    simp only [decide_eq_true_eq, List.mem_range]
    constructor
    · intro h
      refine ⟨?_, ?_⟩
      · have h0 := h 0 hn
        simpa using h0
      · intro i hi0 hin
        have hi := h i hin
        rwa [if_neg (by omega)] at hi
    · rintro ⟨h0, hrest⟩ i hin
      by_cases hi : i = 0
      · subst hi
        simpa using h0
      · rw [if_neg hi]
        exact hrest i (by omega) hin
  constructor
  · intro hE
    rw [check_and_generate_subclaim, if_pos (hiff.mpr hE)]
  · intro hE
    rw [check_and_generate_subclaim, if_neg (fun hb => hE (hiff.mp hb))]

/-- Witness for C2: the verifier state of the example run passes the batch
check and produces the expected sub-claim. -/
theorem check_and_generate_subclaim_spec_witness :
    check_and_generate_subclaim (⟨1, 1, [[3, 5]], [2]⟩ : IOPVerifierState ℚ) 8 1 1 =
      .ok ⟨[2], interpolate [(3 : ℚ), 5] 2⟩ :=
  (check_and_generate_subclaim_spec (⟨1, 1, [[3, 5]], [2]⟩ : IOPVerifierState ℚ) 8 1 1
    (by norm_num)).1
    ⟨show interpolate [(3 : ℚ), 5] 0 + interpolate [(3 : ℚ), 5] 1 = 8 by
        rw [interpolate_pair, interpolate_pair]; norm_num,
      fun i hi0 hi1 => by
        have h1 : i < 1 := hi1
        omega⟩

/-- C8: Transcript binding order — a successful `prove` run's final history
is the initial history, then `aux_info`, then each round message immediately
followed by the challenge derived after it; replaying the round loop of
`verify` on the same initial transcript reproduces exactly the prover's
challenge sequence and history. -/
theorem transcript_binding_order {chalFn : List (TItem F) → F} {poly : VirtualPolynomial F}
    {mask : RandomMaskPolynomial F} {rho : F} {t : List (TItem F)} {pf : IOPProof F}
    {histP : List (TItem F)} (hp : prove chalFn poly mask rho t = .ok (pf, histP)) :
    histP = (t ++ [TItem.auxInfo poly.aux_info]) ++ interleave pf.proofs pf.point ∧
    ∃ vs : IOPVerifierState F,
      verifyRounds chalFn pf.proofs 0 poly.aux_info.num_variables
        (verifier_init poly.aux_info) (t ++ [TItem.auxInfo poly.aux_info]) =
        .ok (vs, histP) ∧
      vs.challenges = pf.point ∧
      vs.polynomials_received = pf.proofs.map (fun m => m.evaluations) := by
  obtain ⟨-, heq⟩ := prove_ok_elim hp
  obtain ⟨newcs, hcs, -, -, hhist, -, -⟩ := proveRounds_ok heq
  rw [List.nil_append] at hcs
  obtain ⟨newcs2, hcs2, hver⟩ := verifyRounds_sim heq pf.proofs 0 rfl
    (verifier_init poly.aux_info)
  rw [List.nil_append] at hcs2
  refine ⟨by rw [hhist, hcs], ⟨_, hver, ?_, ?_⟩⟩
  · rw [hcs2]
    simp [verifier_init]
  · simp [verifier_init]

/-- Witness for C8 at a concrete run. -/
theorem transcript_binding_order_witness :
    exHist = (([] : List (TItem ℚ)) ++ [TItem.auxInfo exPoly.aux_info]) ++
      interleave exProof.proofs exProof.point ∧
    ∃ vs : IOPVerifierState ℚ,
      verifyRounds exChal exProof.proofs 0 exPoly.aux_info.num_variables
        (verifier_init exPoly.aux_info) (([] : List (TItem ℚ)) ++
          [TItem.auxInfo exPoly.aux_info]) = .ok (vs, exHist) ∧
      vs.challenges = exProof.point ∧
      vs.polynomials_received = exProof.proofs.map (fun m => m.evaluations) :=
  @transcript_binding_order ℚ _ _ exChal exPoly exMask 1 [] exProof exHist exProve_eval

/-- C7: `extract_sum` returns the sum of the first round message's evaluation
at the point 0 and at the point 1 — which are its first two evaluation
entries — and on an honestly generated proof this is the combined claimed sum
`true_sum + rho * mask_sum`. -/
theorem extract_sum_spec [CharZero F] :
    (∀ (pf : IOPProof F) (m : IOPProverMessage F) (rest : List (IOPProverMessage F)),
      pf.proofs = m :: rest → 2 ≤ m.evaluations.length →
      extract_sum pf = .ok (m.evaluations.getD 0 0 + m.evaluations.getD 1 0) ∧
      interpolate m.evaluations 0 = m.evaluations.getD 0 0 ∧
      interpolate m.evaluations 1 = m.evaluations.getD 1 0) ∧
    (∀ (chalFn : List (TItem F) → F) (poly : VirtualPolynomial F)
      (mask : RandomMaskPolynomial F) (rho : F) (t : List (TItem F)) (pf : IOPProof F)
      (histP : List (TItem F)),
      prove chalFn poly mask rho t = .ok (pf, histP) →
      0 < poly.aux_info.num_variables → 1 ≤ degreeBound poly mask →
      extract_sum pf = .ok (hypercubeSum poly.aux_info.num_variables (vpEval poly) +
        rho * hypercubeSum poly.aux_info.num_variables (maskEvalCore mask.evaluations))) := by
  constructor
  · intro pf m rest hpf hlen
    obtain ⟨e0, h0⟩ : ∃ e0, m.evaluations[0]? = some e0 :=
      ⟨_, List.getElem?_eq_getElem (by omega)⟩
    obtain ⟨e1, h1⟩ : ∃ e1, m.evaluations[1]? = some e1 :=
      ⟨_, List.getElem?_eq_getElem (by omega)⟩
    have hd0 : m.evaluations.getD 0 0 = e0 := getD_of_getElem? 0 h0
    have hd1 : m.evaluations.getD 1 0 = e1 := getD_of_getElem? 0 h1
    refine ⟨?_, ?_, ?_⟩
    · rw [extract_sum, hpf]
      simp only [List.getElem?_cons_zero]
      rw [h0, h1, hd0, hd1]
    · have h := interpolate_at_node m.evaluations 0 (by omega)
      simpa using h
    · have h := interpolate_at_node m.evaluations 1 (by omega)
      simpa using h
  · intro chalFn poly mask rho t pf histP hp hn hD
    obtain ⟨⟨hmnv, hmd⟩, heq⟩ := prove_ok_elim hp
    obtain ⟨newcs, hcs, hclen, hmlen, -, -, hmsg⟩ := proveRounds_ok heq
    have h0 := hmsg 0 hn
    simp only [Nat.sub_zero, List.take_zero, List.append_nil, List.nil_append] at h0
    have he0 : (roundMessage (combinedF poly mask rho)
        (poly.aux_info.num_variables - 1) [] (degreeBound poly mask)).evaluations[0]? =
        some (sectionSum (combinedF poly mask rho)
          (poly.aux_info.num_variables - 1) [] ((0 : Nat) : F)) := by
      simp [roundMessage, List.getElem?_map, List.getElem?_range]
    have he1 : (roundMessage (combinedF poly mask rho)
        (poly.aux_info.num_variables - 1) [] (degreeBound poly mask)).evaluations[1]? =
        some (sectionSum (combinedF poly mask rho)
          (poly.aux_info.num_variables - 1) [] ((1 : Nat) : F)) := by
      have h1lt : 1 < degreeBound poly mask + 1 := by omega
      simp [roundMessage, List.getElem?_map, List.getElem?_range, h1lt]
    rw [extract_sum, h0]
    simp only [he0, he1]
    have hsum : sectionSum (combinedF poly mask rho)
        (poly.aux_info.num_variables - 1) [] ((0 : Nat) : F) +
        sectionSum (combinedF poly mask rho)
          (poly.aux_info.num_variables - 1) [] ((1 : Nat) : F) =
        hypercubeSum poly.aux_info.num_variables (combinedF poly mask rho) := by
      rw [Nat.cast_zero, Nat.cast_one, sectionSum_zero_add_one]
      have hn1 : poly.aux_info.num_variables - 1 + 1 = poly.aux_info.num_variables := by
        omega
      rw [hn1]
      simp [hypercubeSum]
    rw [hsum, hypercubeSum_combined]

/-- Witness for C7: both parts at the concrete run. -/
theorem extract_sum_spec_witness :
    extract_sum exProof = .ok (([3, 5] : List ℚ).getD 0 0 + ([3, 5] : List ℚ).getD 1 0) ∧
    extract_sum exProof = .ok (hypercubeSum 1 (vpEval exPoly) +
      1 * hypercubeSum 1 (maskEvalCore exMask.evaluations)) :=
  ⟨((@extract_sum_spec ℚ _ _ _).1 exProof ⟨[3, 5]⟩ [] rfl (by norm_num)).1,
    (@extract_sum_spec ℚ _ _ _).2 exChal exPoly exMask 1 [] exProof exHist exProve_eval
      (by decide) (by decide)⟩

/-- C1: Completeness round trip — for a virtual polynomial and mask with
matching variable count and degree bound, a nonzero blinding scalar `rho`,
and a claimed sum computed as `true_sum + rho * mask_sum`, a successful
`prove` on a transcript followed by `verify` on an identically initialized
transcript returns a sub-claim (no error), and that sub-claim's point `P`
satisfies `polynomial.evaluate(P) + rho * mask.evaluate(P) ==
expected_evaluation`. -/
theorem zk_sum_check_completeness [CharZero F] {chalFn : List (TItem F) → F}
    {poly : VirtualPolynomial F} {mask : RandomMaskPolynomial F} {rho : F}
    {t : List (TItem F)} {pf : IOPProof F} {histP : List (TItem F)} {claimed : F}
    (hrho : rho ≠ 0) (hn : 0 < poly.aux_info.num_variables)
    (hwf : ∀ pr ∈ poly.products, (pr.2).length ≤ poly.aux_info.max_degree)
    (hrows : ∀ r ∈ mask.evaluations, r.length = maskDegree mask + 1)
    (hclaimed : claimed =
      hypercubeSum poly.aux_info.num_variables (vpEval poly) +
        rho * hypercubeSum poly.aux_info.num_variables (maskEvalCore mask.evaluations))
    (hp : prove chalFn poly mask rho t = .ok (pf, histP)) :
    ∃ sc : ZkSumCheckSubClaim F,
      verify chalFn claimed pf poly.aux_info t mask.evaluations.length (maskDegree mask) =
        .ok (sc, histP) ∧
      vpEval poly sc.point + rho * maskEvalCore mask.evaluations sc.point =
        sc.expected_evaluation := by
  obtain ⟨⟨hmnv, hmd⟩, heq⟩ := prove_ok_elim hp
  obtain ⟨newcs, hcs, hclen, hmlen, hhist, hnz, hmsg⟩ := proveRounds_ok heq
  rw [List.nil_append] at hcs
  obtain ⟨newcs2, hcs2, hver⟩ := verifyRounds_sim heq pf.proofs 0 rfl
    (verifier_init poly.aux_info)
  rw [List.nil_append] at hcs2
  have hnc2 : newcs2 = newcs := by rw [← hcs2, hcs]
  rw [hnc2] at hver
  -- the verifier state reached after the round loop
  have hvs : verifyRounds chalFn pf.proofs 0 poly.aux_info.num_variables
      (verifier_init poly.aux_info) (t ++ [TItem.auxInfo poly.aux_info]) =
      .ok (⟨poly.aux_info.num_variables, poly.aux_info.max_degree,
        pf.proofs.map (fun m => m.evaluations), newcs⟩, histP) := by
    rw [hver]
    simp [verifier_init]
  -- interpolation of the i-th received message is the honest round polynomial
  have hinterp : ∀ i, i < poly.aux_info.num_variables → ∀ x : F,
      interpolate ((pf.proofs.map (fun m => m.evaluations)).getD i []) x =
        sectionSum (combinedF poly mask rho) (poly.aux_info.num_variables - 1 - i)
          (newcs.take i) x := by
    intro i hi x
    have h := hmsg i hi
    rw [List.nil_append] at h
    have hget : (pf.proofs.map (fun m => m.evaluations)).getD i [] =
        (roundMessage (combinedF poly mask rho)
          (poly.aux_info.num_variables - 1 - i) (newcs.take i)
          (degreeBound poly mask)).evaluations := by
      refine getD_of_getElem? [] ?_
      rw [List.getElem?_map, h]
      rfl
    rw [hget]
    refine interpolate_roundMessage _ _ _ _ ?_ x
    refine isPolyDegLE_sectionSum poly mask rho _ _ (maskDegree mask) hwf hrows ?_
    rw [hmnv]
    simp only [List.length_take, hclen]
    omega
  -- the value both sides of every check equation reduce to
  have hLHS : ∀ i, i < poly.aux_info.num_variables →
      interpolate ((pf.proofs.map (fun m => m.evaluations)).getD i []) 0 +
        interpolate ((pf.proofs.map (fun m => m.evaluations)).getD i []) 1 =
      ((hypercube F (poly.aux_info.num_variables - i)).map
        (fun b => combinedF poly mask rho (newcs.take i ++ b))).sum := by
    intro i hi
    rw [hinterp i hi 0, hinterp i hi 1, sectionSum_zero_add_one]
    have harith : poly.aux_info.num_variables - 1 - i + 1 =
        poly.aux_info.num_variables - i := by omega
    rw [harith]
  have hEXP0 : claimed =
      ((hypercube F (poly.aux_info.num_variables - 0)).map
        (fun b => combinedF poly mask rho (newcs.take 0 ++ b))).sum := by
    rw [hclaimed, ← hypercubeSum_combined]
    simp [hypercubeSum]
  have hEXPi : ∀ i, 0 < i → i < poly.aux_info.num_variables →
      interpolate ((pf.proofs.map (fun m => m.evaluations)).getD (i - 1) [])
        (newcs.getD (i - 1) 0) =
      ((hypercube F (poly.aux_info.num_variables - i)).map
        (fun b => combinedF poly mask rho (newcs.take i ++ b))).sum := by
    intro i hi0 hi
    rw [hinterp (i - 1) (by omega) _, sectionSum_push]
    have ht : newcs.take (i - 1) ++ [newcs.getD (i - 1) 0] = newcs.take i := by
      rw [← take_succ_getD (by rw [hclen]; omega) 0]
      congr 1
      omega
    have harith : poly.aux_info.num_variables - 1 - (i - 1) =
        poly.aux_info.num_variables - i := by omega
    rw [ht, harith]
  -- the deferred batch check passes
  have hall : ((List.range poly.aux_info.num_variables).all (fun i =>
      decide (interpolate ((pf.proofs.map (fun m => m.evaluations)).getD i []) 0 +
        interpolate ((pf.proofs.map (fun m => m.evaluations)).getD i []) 1 =
        if i = 0 then claimed
        else interpolate ((pf.proofs.map (fun m => m.evaluations)).getD (i - 1) [])
          (newcs.getD (i - 1) 0)))) = true := by
    rw [List.all_eq_true]
    intro i hi
    rw [List.mem_range] at hi
    rw [decide_eq_true_eq]
    by_cases h0 : i = 0
    · subst h0
      rw [if_pos rfl, hLHS 0 hi, ← hEXP0]
    · rw [if_neg h0, hLHS i hi, hEXPi i (by omega) hi]
  -- the final expected evaluation is the blinded polynomial at the point
  have hfinal : interpolate ((pf.proofs.map (fun m => m.evaluations)).getD
        (poly.aux_info.num_variables - 1) [])
        (newcs.getD (poly.aux_info.num_variables - 1) 0) =
      combinedF poly mask rho newcs := by
    rw [hinterp (poly.aux_info.num_variables - 1) (by omega) _, sectionSum_push]
    have ht : newcs.take (poly.aux_info.num_variables - 1) ++
        [newcs.getD (poly.aux_info.num_variables - 1) 0] = newcs := by
      rw [← take_succ_getD (by rw [hclen]; omega) 0]
      have harith : poly.aux_info.num_variables - 1 + 1 =
          poly.aux_info.num_variables := by omega
      rw [harith, ← hclen, List.take_length]
    have harith0 : poly.aux_info.num_variables - 1 -
        (poly.aux_info.num_variables - 1) = 0 := by omega
    rw [ht, harith0]
    simp [hypercube]
  have hcheck : check_and_generate_subclaim
      (⟨poly.aux_info.num_variables, poly.aux_info.max_degree,
        pf.proofs.map (fun m => m.evaluations), newcs⟩ : IOPVerifierState F)
      claimed mask.evaluations.length (maskDegree mask) =
      .ok ⟨newcs, interpolate ((pf.proofs.map (fun m => m.evaluations)).getD
        (poly.aux_info.num_variables - 1) [])
        (newcs.getD (poly.aux_info.num_variables - 1) 0)⟩ := by
    simp only [check_and_generate_subclaim]
    rw [if_pos hall]
  refine ⟨⟨newcs, interpolate ((pf.proofs.map (fun m => m.evaluations)).getD
    (poly.aux_info.num_variables - 1) [])
    (newcs.getD (poly.aux_info.num_variables - 1) 0)⟩, ?_, ?_⟩
  · rw [verify, hvs]
    simp only [hcheck]
  · rw [hfinal]
    rfl

/-- Witness for C1 at a concrete run: one variable, factor table `[3, 5]`,
zero mask, `rho = 1`, claimed sum 8. -/
theorem zk_sum_check_completeness_witness :
    ∃ sc : ZkSumCheckSubClaim ℚ,
      verify exChal 8 exProof exPoly.aux_info [] exMask.evaluations.length
        (maskDegree exMask) = .ok (sc, exHist) ∧
      vpEval exPoly sc.point + 1 * maskEvalCore exMask.evaluations sc.point =
        sc.expected_evaluation := by
  refine @zk_sum_check_completeness ℚ _ _ _ exChal exPoly exMask 1 [] exProof exHist 8
    (by norm_num) (by decide) ?_ ?_ ?_ exProve_eval
  · intro pr hpr
    rw [show exPoly.products = [((1 : ℚ), [[3, 5]])] from rfl, List.mem_singleton] at hpr
    subst hpr
    decide
  · intro r hr
    rw [show exMask.evaluations = [[0, 0]] from rfl, List.mem_singleton] at hr
    subst hr
    decide
  · have hmask0 : ∀ x : ℚ, interpolate [0, 0] x = 0 := by
      intro x
      rw [interpolate_pair]
      norm_num
    simp only [hypercubeSum, hypercube, vpEval, maskEvalCore, mleEval,
      List.map_append, List.map_map, List.sum_append]
    norm_num [exPoly, exMask, exAux, vpEval, maskEvalCore, mleEval, hmask0]

end ZkSumCheck
